import Mathlib

/-!
Verification development for the configuration-language converter
(`src/converter.py`): a regex-priority lexer, a recursive-descent parser
with a constants table and an insertion-ordered output mapping, inline
binary arithmetic and a sort built-in.

Modelling conventions:
* Source text is a `List Char`; token lexemes are `List Char`.
* Python `dict` (insertion-ordered, overwrite-in-place) is an association
  list with `dictGet` / `dictSet`.
* Python `float` values are modelled as exact rationals (`Rat`); no
  verified property depends on binary floating-point rounding.
* The recursive scanners and parsers carry an explicit fuel argument so
  that every definition is structurally recursive and kernel-computable;
  running out of fuel yields the distinguished error `Err.outOfFuel`,
  never one of the program's own error kinds.  The entry points supply
  fuel larger than any reachable recursion depth.
* Source positions (line/column) are not modelled: they feed only error
  messages, and no verified property mentions them.  Error values carry
  just the error kind of section 7 of the design.
* Character classes are the ASCII readings of the regex classes
  (`\d`, `\s`, `[_a-zA-Z]`); non-ASCII digit/space characters are outside
  the modelled scope.
-/

namespace Converter

/-- Token kinds, exactly the group names of the token regex in
`Lexer.tokenize` (src/converter.py lines 28-44).  As in the source, a bar
character is first matched as `PIPE_OPEN` (the second `PIPE_CLOSE`
alternative of the regex can never win) and is reclassified by the
running open/close counts. -/
inductive TokType where
  | NUMBER
  | ARRAY_OPEN
  | PAREN_CLOSE
  | COMMA
  | IS
  | PIPE_OPEN
  | PIPE_CLOSE
  | PLUS
  | MINUS
  | MULTIPLY
  | SORT
  | NAME
  | COMMENT
  | WHITESPACE
  | MISMATCH
deriving DecidableEq, Repr

/-- A lexed token: kind and lexeme (class `Token`, src/converter.py lines 8-16;
positions omitted, see the module docstring). -/
structure Token where
  type : TokType
  value : List Char
deriving DecidableEq, Repr

/-- Error kinds of the conversion (section 7 taxonomy): `lexError` is the
`SyntaxError` raised by the lexer, `parseError` the `SyntaxError` raised by
the parser, `nameError` the `NameError` of unresolved constants, `typeError`
the `TypeError` of `sort()` / arithmetic.  `outOfFuel` is the embedding's
fuel-exhaustion marker and corresponds to no program behaviour. -/
inductive Err where
  | lexError
  | parseError
  | nameError
  | typeError
  | outOfFuel
deriving DecidableEq, BEq, Repr

/-- Parsed values: the tagged union Integer / Float / List threaded through
the parser (Python `int`, `float`, `list`). -/
inductive Value where
  | int : Int → Value
  | float : Rat → Value
  | list : List Value → Value
deriving Repr

instance : Inhabited Value := ⟨Value.int 0⟩

/-- Structural equality of values (Python `==` on the value shapes used
by the converter). -/
def Value.beq : Value → Value → Bool
  | .int a, .int b => a == b
  | .float a, .float b => a == b
  | .list a, .list b => listBeq a b
  | _, _ => false
where listBeq : List Value → List Value → Bool
  | [], [] => true
  | a :: as, b :: bs => Value.beq a b && listBeq as bs
  | _, _ => false

/-- Digits, the regex class `\d` (ASCII): code points 48-57. -/
def isDigitC (c : Char) : Bool := decide (48 ≤ c.toNat ∧ c.toNat ≤ 57)

/-- Start of an identifier, the regex class `[_a-zA-Z]`: underscore (95) or
a lower-case (97-122) or upper-case (65-90) letter. -/
def isNameStart (c : Char) : Bool :=
  decide (c.toNat = 95 ∨ (97 ≤ c.toNat ∧ c.toNat ≤ 122) ∨ (65 ≤ c.toNat ∧ c.toNat ≤ 90))

/-- Continuation of an identifier: the regex class `[_a-zA-Z0-9]`. -/
def isNameChar (c : Char) : Bool := isNameStart c || isDigitC c

/-- Whitespace characters of the regex class `\s` (ASCII): space, tab,
newline, carriage return, vertical tab, form feed. -/
def isPySpace (c : Char) : Bool :=
  decide (c.toNat = 32 ∨ c.toNat = 9 ∨ c.toNat = 10 ∨ c.toNat = 13 ∨
    c.toNat = 11 ∨ c.toNat = 12)

/-- Remainder of a `NUMBER` lexeme after a leading digit: the greedy match
of `\d+(\.\d*)?` continues with more digits, then an optional dot followed
by zero or more digits (src/converter.py line 29). -/
def numberTail (cs : List Char) : List Char :=
  match cs.dropWhile isDigitC with
  | '.' :: r2 => cs.takeWhile isDigitC ++ '.' :: r2.takeWhile isDigitC
  | _ => cs.takeWhile isDigitC

/-- One step of the combined token regex at the current position: the head
character `c` and the remaining text `cs` determine the winning alternative
(tried in the fixed priority order of `token_specs`, src/converter.py lines
28-44) and the tail of its greedy lexeme (the full lexeme is `c :: tail`).
Python alternation takes the first alternative that matches at the current
position, each alternative matching greedily. -/
def matchLexeme (c : Char) (cs : List Char) : TokType × List Char :=
  if isDigitC c then (.NUMBER, numberTail cs)
  else if c == '.' && isDigitC (cs.headD ' ') then (.NUMBER, cs.takeWhile isDigitC)
  else if c == 'a' && cs.take 5 == ("rray(").data then (.ARRAY_OPEN, ("rray(").data)
  else if c == ')' then (.PAREN_CLOSE, [])
  else if c == ',' then (.COMMA, [])
  else if c == 'i' && cs.take 1 == ['s'] then (.IS, ['s'])
  else if c == '|' then (.PIPE_OPEN, [])
  else if c == '+' then (.PLUS, [])
  else if c == '-' then (.MINUS, [])
  else if c == '*' then (.MULTIPLY, [])
  else if c == 's' && cs.take 4 == ("ort(").data then (.SORT, ("ort(").data)
  else if isNameStart c then (.NAME, cs.takeWhile isNameChar)
  else if c == '#' then (.COMMENT, cs.takeWhile (fun ch => !(ch == '\n')))
  else if isPySpace c then (.WHITESPACE, cs.takeWhile isPySpace)
  else (.MISMATCH, [])

/-- The scanning loop of `Lexer.tokenize` (src/converter.py lines 48-77):
match the next lexeme, skip whitespace and comments, fail on `MISMATCH`,
reclassify a bar as `PIPE_OPEN` when `opens <= closes` and as `PIPE_CLOSE`
otherwise, and emit the token.  The source recounts `opens`/`closes` from
the accumulated token list at every bar; carrying the two counters is the
same computation. -/
def lexLoop : Nat → List Char → Nat → Nat → Except Err (List Token)
  | _, [], _, _ => .ok []
  | 0, _ :: _, _, _ => .error .outOfFuel
  | fuel + 1, c :: cs, opens, closes =>
    let m := matchLexeme c cs
    let rest := cs.drop m.2.length
    if m.1 = .WHITESPACE ∨ m.1 = .COMMENT then
      lexLoop fuel rest opens closes
    else if m.1 = .MISMATCH then
      .error .lexError
    else if m.1 = .PIPE_OPEN ∨ m.1 = .PIPE_CLOSE then
      if opens ≤ closes then
        (lexLoop fuel rest (opens + 1) closes).map (⟨.PIPE_OPEN, c :: m.2⟩ :: ·)
      else
        (lexLoop fuel rest opens (closes + 1)).map (⟨.PIPE_CLOSE, c :: m.2⟩ :: ·)
    else
      (lexLoop fuel rest opens closes).map (⟨m.1, c :: m.2⟩ :: ·)

/-- Embeds `Lexer.tokenize` (src/converter.py lines 27-77).  Every scan step
consumes at least one character, so fuel `length + 1` is never exhausted. -/
def tokenize (text : List Char) : Except Err (List Token) :=
  lexLoop (text.length + 1) text 0 0

/-- Value of a digit string, as Python `int` on a `\d+` lexeme. -/
def digitsToNat (l : List Char) : Nat :=
  l.foldl (fun a c => 10 * a + (c.toNat - 48)) 0

/-- Python `int(lexeme)` for a dot-free `NUMBER` lexeme. -/
def intOfLexeme (l : List Char) : Int := Int.ofNat (digitsToNat l)

/-- Python `float(lexeme)` for a `NUMBER` lexeme containing a dot, read as
an exact decimal: integer part plus fractional digits over a power of ten. -/
def floatOfLexeme (l : List Char) : Rat :=
  let ip := l.takeWhile (fun ch => !(ch == '.'))
  let fp := (l.dropWhile (fun ch => !(ch == '.'))).tail
  (digitsToNat ip : Rat) + (digitsToNat fp : Rat) / ((10 : Rat) ^ fp.length)

/-- The `NUMBER` branch of `Parser.parse_value` (src/converter.py lines
126-130): a lexeme containing `'.'` becomes a Float, any other an Integer. -/
def numValue (lex : List Char) : Value :=
  if lex.contains '.' then .float (floatOfLexeme lex) else .int (intOfLexeme lex)

/-- Whether a value is a number (Integer or Float). -/
def isNum : Value → Bool
  | .int _ => true
  | .float _ => true
  | .list _ => false

/-- Whether a value is a Float. -/
def isFloatV : Value → Bool
  | .float _ => true
  | _ => false

/-- Whether a value is a List (Python `isinstance(v, list)`). -/
def isList : Value → Bool
  | .list _ => true
  | _ => false

/-- Numeric magnitude of a number value (meaningful only under `isNum`;
a list is given a junk value and is never compared, see `pySorted`). -/
def numVal : Value → Rat
  | .int n => (n : Rat)
  | .float q => q
  | .list _ => 0

/-- Comparison used by `sorted` on number values: numeric ascending with
Integer/Float compared by value. -/
def vLe (a b : Value) : Prop := numVal a ≤ numVal b

instance : DecidableRel vLe := fun a b => inferInstanceAs (Decidable (numVal a ≤ numVal b))

instance : IsTotal Value vLe := ⟨fun a b => le_total (numVal a) (numVal b)⟩

instance : IsTrans Value vLe := ⟨fun _ _ _ hab hbc => le_trans hab hbc⟩

/-- Python `sorted` as used on the converter's arrays (src/converter.py
line 217): a stable ascending sort by numeric value.  Elements that are not
numbers are not comparable by this order; following section 4.3 of the
design (nested lists are outside the defined behaviour and an implementation
must reject rather than misbehave) such a call is modelled as `TypeError`. -/
def pySorted (l : List Value) : Except Err (List Value) :=
  if l.all isNum then .ok (l.insertionSort vLe) else .error .typeError

/-- Python `list * int` / `int * list`: the list repeated, empty when the
count is not positive. -/
def listRepeat (n : Int) (l : List Value) : List Value :=
  (List.replicate n.toNat l).flatten

/-- Python `+` on the converter's values (src/converter.py line 194):
numbers add with float promotion, `list + list` concatenates, and any
other mix involving a list raises `TypeError`. -/
def pyAdd : Value → Value → Except Err Value
  | .int a, .int b => .ok (.int (a + b))
  | .int a, .float b => .ok (.float ((a : Rat) + b))
  | .float a, .int b => .ok (.float (a + (b : Rat)))
  | .float a, .float b => .ok (.float (a + b))
  | .list a, .list b => .ok (.list (a ++ b))
  | _, _ => .error .typeError

/-- Python `-` on the converter's values (src/converter.py line 196):
defined on numbers only; any list operand raises `TypeError`. -/
def pySub : Value → Value → Except Err Value
  | .int a, .int b => .ok (.int (a - b))
  | .int a, .float b => .ok (.float ((a : Rat) - b))
  | .float a, .int b => .ok (.float (a - (b : Rat)))
  | .float a, .float b => .ok (.float (a - b))
  | _, _ => .error .typeError

/-- Python `*` on the converter's values (src/converter.py line 198):
numbers multiply with float promotion, a list times an Integer (either
order) repeats the list, and any other mix involving a list raises
`TypeError`. -/
def pyMul : Value → Value → Except Err Value
  | .int a, .int b => .ok (.int (a * b))
  | .int a, .float b => .ok (.float ((a : Rat) * b))
  | .float a, .int b => .ok (.float (a * (b : Rat)))
  | .float a, .float b => .ok (.float (a * b))
  | .list a, .int n => .ok (.list (listRepeat n a))
  | .int n, .list a => .ok (.list (listRepeat n a))
  | _, _ => .error .typeError

/-- Dispatch of the binary operation in `Parser.parse_constant_expr`
(src/converter.py lines 193-198).  The catch-all is unreachable: the caller
only passes `PLUS`, `MINUS` or `MULTIPLY`. -/
def evalBinOp : TokType → Value → Value → Except Err Value
  | .PLUS, a, b => pyAdd a b
  | .MINUS, a, b => pySub a b
  | .MULTIPLY, a, b => pyMul a b
  | _, _, _ => .error .parseError

/-- Lookup in an insertion-ordered dictionary (`name in d` / `d[name]`). -/
def dictGet (d : List (List Char × Value)) (k : List Char) : Option Value :=
  match d with
  | [] => none
  | (k2, v) :: rest => if k2 = k then some v else dictGet rest k

/-- Assignment `d[k] = v` on an insertion-ordered dictionary: overwrite in
place when the key exists, else append. -/
def dictSet (d : List (List Char × Value)) (k : List Char) (v : Value) :
    List (List Char × Value) :=
  match d with
  | [] => [(k, v)]
  | (k2, v2) :: rest => if k2 = k then (k2, v) :: rest else (k2, v2) :: dictSet rest k v

/-- Parser state: the constants table and the output mapping
(`Parser.__init__`, src/converter.py lines 81-86). -/
structure PState where
  constants : List (List Char × Value)
  output : List (List Char × Value)

/-- The binding step of the top-level loop (src/converter.py lines 110-113):
the constants table receives the value only when the name is not yet a key
of the output mapping; the output mapping is always assigned. -/
def bindName (st : PState) (name : List Char) (v : Value) : PState :=
  { constants :=
      if (dictGet st.output name).isSome then st.constants
      else dictSet st.constants name v
    output := dictSet st.output name v }

/-- The `NAME` branch of `Parser.parse_value` (src/converter.py lines
135-141): look the name up in the constants table, fall back to the output
mapping, else `NameError`. -/
def resolveName (st : PState) (name : List Char) : Except Err Value :=
  match dictGet st.constants name with
  | some v => .ok v
  | none =>
    match dictGet st.output name with
    | some v => .ok v
    | none => .error .nameError

/-- Name resolution without the output-mapping fallback.  This follows the
words of the claim that the fallback is never taken; it is compared with
`resolveName` (the definition from the source). -/
def resolveNameConstantsOnly (st : PState) (name : List Char) : Except Err Value :=
  match dictGet st.constants name with
  | some v => .ok v
  | none => .error .nameError

/-- Consume one token of the expected kind (`Parser.eat`, src/converter.py
lines 93-101). -/
def eat (tt : TokType) : List Token → Except Err (Token × List Token)
  | [] => .error .parseError
  | t :: rest => if t.type = tt then .ok (t, rest) else .error .parseError

/-- Kind of the current token, if any (`Parser.current_token`). -/
def headType (ts : List Token) : Option TokType := ts.head?.map Token.type

mutual

/-- Embeds `Parser.parse_value` (src/converter.py lines 121-144): dispatch
on the current token kind. -/
def parse_value : Nat → PState → List Token → Except Err (Value × List Token)
  | 0, _, _ => .error .outOfFuel
  | _ + 1, _, [] => .error .parseError
  | fuel + 1, st, t :: rest =>
    match t.type with
    | .NUMBER => .ok (numValue t.value, rest)
    | .ARRAY_OPEN => (parse_array fuel st (t :: rest)).map (fun p => (.list p.1, p.2))
    | .PIPE_OPEN => parse_constant_expr fuel st (t :: rest)
    | .NAME => (resolveName st t.value).map (fun v => (v, rest))
    | _ => .error .parseError

/-- Embeds `Parser.parse_array` up to its element loop (src/converter.py
lines 146-154): consume `array(`, return the empty list on an immediate
closing paren, otherwise parse the first element and enter the loop.  When
the stream ends right after `array(`, the source skips the closing-paren
test and `parse_value` raises the EOF `SyntaxError`; here `parse_value []`
yields the same `parseError`. -/
def parse_array : Nat → PState → List Token → Except Err (List Value × List Token)
  | 0, _, _ => .error .outOfFuel
  | fuel + 1, st, ts =>
    match eat .ARRAY_OPEN ts with
    | .error e => .error e
    | .ok (_, ts1) =>
      if headType ts1 = some .PAREN_CLOSE then .ok ([], ts1.tail)
      else
        match parse_value fuel st ts1 with
        | .error e => .error e
        | .ok (v, ts2) =>
          match parse_array_loop fuel st ts2 with
          | .error e => .error e
          | .ok (vs, ts3) => .ok (v :: vs, ts3)

/-- The element loop of `Parser.parse_array` and its final closing paren
(src/converter.py lines 156-161): while the current token is a comma,
consume it and parse one more element; finally consume `PAREN_CLOSE`. -/
def parse_array_loop : Nat → PState → List Token → Except Err (List Value × List Token)
  | 0, _, _ => .error .outOfFuel
  | fuel + 1, st, ts =>
    if headType ts = some .COMMA then
      match parse_value fuel st ts.tail with
      | .error e => .error e
      | .ok (v, ts2) =>
        match parse_array_loop fuel st ts2 with
        | .error e => .error e
        | .ok (vs, ts3) => .ok (v :: vs, ts3)
    else
      match eat .PAREN_CLOSE ts with
      | .error e => .error e
      | .ok (_, ts1) => .ok ([], ts1)

/-- Embeds `Parser.parse_constant_expr` (src/converter.py lines 163-200):
after `PIPE_OPEN`, either a sort call, or a value followed by `PIPE_CLOSE`
(bare parenthesised value) or by a binary operator, a right operand and
`PIPE_CLOSE`.  As in the source, the closing bar is consumed before the
operation is evaluated. -/
def parse_constant_expr : Nat → PState → List Token → Except Err (Value × List Token)
  | 0, _, _ => .error .outOfFuel
  | fuel + 1, st, ts =>
    match eat .PIPE_OPEN ts with
    | .error e => .error e
    | .ok (_, ts1) =>
      match ts1 with
      | [] => .error .parseError
      | t :: _ =>
        if t.type = .SORT then parse_sort_function fuel st ts1
        else
          match parse_value fuel st ts1 with
          | .error e => .error e
          | .ok (left, ts2) =>
            match ts2 with
            | [] => .error .parseError
            | t2 :: rest2 =>
              if t2.type = .PIPE_CLOSE then .ok (left, rest2)
              else if t2.type = .PLUS ∨ t2.type = .MINUS ∨ t2.type = .MULTIPLY then
                match parse_value fuel st rest2 with
                | .error e => .error e
                | .ok (right, ts3) =>
                  match eat .PIPE_CLOSE ts3 with
                  | .error e => .error e
                  | .ok (_, ts4) => (evalBinOp t2.type left right).map (fun v => (v, ts4))
              else .error .parseError

/-- Embeds `Parser.parse_sort_function` (src/converter.py lines 202-217):
consume `sort(`, parse the argument, consume the closing paren, check the
argument is a list (else `TypeError`, before the closing bar is consumed,
as in the source), consume `PIPE_CLOSE`, and return the sorted copy. -/
def parse_sort_function : Nat → PState → List Token → Except Err (Value × List Token)
  | 0, _, _ => .error .outOfFuel
  | fuel + 1, st, ts =>
    match eat .SORT ts with
    | .error e => .error e
    | .ok (_, ts1) =>
      match parse_value fuel st ts1 with
      | .error e => .error e
      | .ok (arg, ts2) =>
        match eat .PAREN_CLOSE ts2 with
        | .error e => .error e
        | .ok (_, ts3) =>
          match arg with
          | .list l =>
            match eat .PIPE_CLOSE ts3 with
            | .error e => .error e
            | .ok (_, ts4) => (pySorted l).map (fun l2 => (Value.list l2, ts4))
          | _ => .error .typeError

end

/-- Embeds the top-level loop of `Parser.parse` (src/converter.py lines
103-119): while tokens remain, expect `NAME` then `IS`, parse a value, and
bind it (`bindName`); on exhaustion return the output mapping. -/
def parse : Nat → PState → List Token → Except Err (List (List Char × Value))
  | _, st, [] => .ok st.output
  | 0, _, _ :: _ => .error .outOfFuel
  | fuel + 1, st, t :: rest =>
    if t.type = .NAME then
      match rest with
      | [] => .error .parseError
      | t2 :: rest2 =>
        if t2.type = .IS then
          match parse_value fuel st rest2 with
          | .error e => .error e
          | .ok (v, ts2) => parse fuel (bindName st t.value v) ts2
        else .error .parseError
    else .error .parseError

/-- The fresh parser state of `Parser.__init__` (src/converter.py lines
81-86): empty constants table and empty output mapping. -/
def initState : PState := { constants := [], output := [] }

/-- Run the parser on a token stream from the fresh state of
`Parser.__init__` (src/converter.py lines 81-86).  Every recursive call
consumes at least one token, so the supplied fuel is never exhausted. -/
def parseTokens (ts : List Token) : Except Err (List (List Char × Value)) :=
  parse (2 * ts.length + 2) initState ts

/-- The whole pipeline of `main` (src/converter.py lines 253-257): tokenize
then parse, with fresh lexer and parser state per invocation. -/
def convert (text : List Char) : Except Err (List (List Char × Value)) :=
  match tokenize text with
  | .error e => .error e
  | .ok ts => parseTokens ts

/-- Applying a sequence of completed top-level bindings to a parser state,
in document order; the states reachable after each completed binding of
`Parser.parse` are exactly the states of this fold from the fresh state. -/
def applyBinds : PState → List (List Char × Value) → PState
  | st, [] => st
  | st, (n, v) :: bs => applyBinds (bindName st n v) bs

/-- Keys in order of first occurrence, given the keys already seen: the
key order produced by repeated `dictSet` on an insertion-ordered
dictionary. -/
def firstKeys (seen : List (List Char)) : List (List Char) → List (List Char)
  | [] => []
  | n :: ns => if n ∈ seen then firstKeys seen ns else n :: firstKeys (seen ++ [n]) ns

/-- Left-biased choice on optional lookups. -/
def orO (a b : Option Value) : Option Value :=
  match a with
  | some v => some v
  | none => b

/-- Whether a token is one of the two bar kinds. -/
def isPipe (t : Token) : Bool :=
  match t.type with
  | .PIPE_OPEN => true
  | .PIPE_CLOSE => true
  | _ => false

/-- The subsequence of bar tokens of a token stream. -/
def pipeToks (ts : List Token) : List Token := ts.filter isPipe

/-- The bar kinds alternate, starting with `PIPE_OPEN` when `b` is true. -/
def AltFrom : Bool → List Token → Prop
  | _, [] => True
  | b, t :: rest =>
    t.type = (if b then TokType.PIPE_OPEN else TokType.PIPE_CLOSE) ∧ AltFrom (!b) rest

/-- A complete `NUMBER` lexeme: the full-match shapes of the regex
alternative `\d+(\.\d*)?|\.\d+`. -/
def isNumLexeme (l : List Char) : Bool :=
  match l with
  | '.' :: rest => !rest.isEmpty && rest.all isDigitC
  | _ =>
    let r := l.dropWhile isDigitC
    !(l.takeWhile isDigitC).isEmpty &&
      (r.isEmpty || (r.headD ' ' == '.' && r.tail.all isDigitC))

/-- Key-set agreement between the constants table and the output mapping of
a parser state. -/
def Inv (st : PState) : Prop :=
  ∀ k, (dictGet st.constants k).isSome = (dictGet st.output k).isSome

/-- A token chunk that `parse_value` parses, in state `st`, to exactly the
value `v`: it consumes the whole chunk and leaves any suffix intact, for
every fuel of at least the chunk's length. -/
def ValueChunk (st : PState) (c : List Token) (v : Value) : Prop :=
  ∀ rest fuel, c.length ≤ fuel → parse_value fuel st (c ++ rest) = .ok (v, rest)

/-- A `NUMBER` token with the given lexeme. -/
def numTok (l : List Char) : Token := ⟨.NUMBER, l⟩

/-- A `COMMA` token. -/
def commaTok : Token := ⟨.COMMA, [',']⟩

/-- An `ARRAY_OPEN` token. -/
def arrayOpenTok : Token := ⟨.ARRAY_OPEN, ("array(").data⟩

/-- A `PAREN_CLOSE` token. -/
def parenCloseTok : Token := ⟨.PAREN_CLOSE, [')']⟩

/-- Comma-separated concatenation of element chunks, as they appear between
`array(` and the closing paren. -/
def sepChunks : List (List Token) → List Token
  | [] => []
  | c :: cs => c ++ (cs.map (fun c2 => commaTok :: c2)).flatten

/-- The comma-prefixed element chunks seen by the element loop. -/
def loopChunks (cs : List (List Token)) : List Token :=
  (cs.map (fun c2 => commaTok :: c2)).flatten

/-- Token stream of a well-formed array literal with the given element
chunks. -/
def arrayToks (chunks : List (List Token)) : List Token :=
  arrayOpenTok :: (sepChunks chunks ++ [parenCloseTok])

/-- Token stream of an array literal whose last `COMMA` is followed by the
closing marker instead of a value (trailing comma). -/
def arrayToksTrailing (chunks : List (List Token)) : List Token :=
  arrayOpenTok :: (sepChunks chunks ++ [commaTok, parenCloseTok])

/-- Token stream of the binding `y is |sort(x)|`. -/
def sortCallToks (y x : List Char) : List Token :=
  [⟨.NAME, y⟩, ⟨.IS, ("is").data⟩, ⟨.PIPE_OPEN, ['|']⟩, ⟨.SORT, ("sort(").data⟩,
   ⟨.NAME, x⟩, ⟨.PAREN_CLOSE, [')']⟩, ⟨.PIPE_CLOSE, ['|']⟩]

/-- Structural equality of two output mappings: same keys in the same
order, values structurally equal. -/
def entriesBeq : List (List Char × Value) → List (List Char × Value) → Bool
  | [], [] => true
  | (k1, v1) :: r1, (k2, v2) :: r2 => k1 == k2 && Value.beq v1 v2 && entriesBeq r1 r2
  | _, _ => false

/-- Structural equality of two conversion results: equal error kinds, or
structurally equal output mappings. -/
def outBeq : Except Err (List (List Char × Value)) → Except Err (List (List Char × Value)) → Bool
  | .error e1, .error e2 => e1 == e2
  | .ok l1, .ok l2 => entriesBeq l1 l2
  | _, _ => false

/-- Fixture: source text with one bar expression. -/
def sW : List Char := ("a is |1|").data

/-- Fixture: the token stream of `sW`. -/
def tsW : List Token :=
  [⟨.NAME, ['a']⟩, ⟨.IS, ['i', 's']⟩, ⟨.PIPE_OPEN, ['|']⟩,
   ⟨.NUMBER, ['1']⟩, ⟨.PIPE_CLOSE, ['|']⟩]

/-- Fixture: a parser state in which `x` is bound to the array `[3, 1, 2]`,
as after parsing `x is array(3,1,2)`. -/
def stW : PState :=
  { constants := [(['x'], .list [.int 3, .int 1, .int 2])],
    output := [(['x'], .list [.int 3, .int 1, .int 2])] }

theorem nameStart_not_digit (c : Char) (h : isNameStart c = true) : isDigitC c = false := by
  simp only [isNameStart, decide_eq_true_eq] at h
  simp only [isDigitC, decide_eq_false_iff_not]
  omega

theorem digit_not_space (c : Char) (h : isDigitC c = true) : isPySpace c = false := by
  simp only [isDigitC, decide_eq_true_eq] at h
  simp only [isPySpace, decide_eq_false_iff_not]
  omega

theorem nameStart_beq_false (c d : Char) (h : isNameStart c = true)
    (hd : isNameStart d = false) : (c == d) = false := by
  cases hcd : c == d
  · rfl
  · have : c = d := by simpa using hcd
    subst this
    simp [h] at hd

theorem digit_beq_false (c d : Char) (h : isDigitC c = true)
    (hd : isDigitC d = false) : (c == d) = false := by
  cases hcd : c == d
  · rfl
  · have : c = d := by simpa using hcd
    subst this
    simp [h] at hd

mutual

theorem Value.beq_refl : ∀ v : Value, Value.beq v v = true
  | .int a => by simp [Value.beq]
  | .float a => by simp [Value.beq]
  | .list l => by simpa [Value.beq] using Value.listBeq_refl l

theorem Value.listBeq_refl : ∀ l : List Value, Value.beq.listBeq l l = true
  | [] => rfl
  | v :: vs => by
    simp only [Value.beq.listBeq, Bool.and_eq_true]
    exact ⟨Value.beq_refl v, Value.listBeq_refl vs⟩

end

theorem entriesBeq_refl : ∀ l : List (List Char × Value), entriesBeq l l = true
  | [] => rfl
  | (k, v) :: rest => by
    simp only [entriesBeq, Bool.and_eq_true]
    exact ⟨⟨by simp, Value.beq_refl v⟩, entriesBeq_refl rest⟩

theorem orO_assoc (a b c : Option Value) : orO (orO a b) c = orO a (orO b c) := by
  cases a <;> rfl

theorem dictGet_dictSet (d : List (List Char × Value)) (k q : List Char) (v : Value) :
    dictGet (dictSet d k v) q = if k = q then some v else dictGet d q := by
  induction d with
  | nil => simp [dictGet, dictSet]
  | cons p rest ih =>
    obtain ⟨k2, v2⟩ := p
    simp only [dictSet]
    by_cases h1 : k2 = k
    · subst h1
      rw [if_pos rfl]
      simp only [dictGet]
      by_cases h2 : k2 = q
      · simp [h2]
      · simp [h2]
    · rw [if_neg h1]
      simp only [dictGet]
      by_cases h2 : k2 = q
      · subst h2
        have hkq : ¬k = k2 := fun hh => h1 hh.symm
        simp [hkq]
      · simp [h2, ih]

theorem dictGet_append (d1 d2 : List (List Char × Value)) (k : List Char) :
    dictGet (d1 ++ d2) k = orO (dictGet d1 k) (dictGet d2 k) := by
  induction d1 with
  | nil => simp [dictGet, orO]
  | cons p rest ih =>
    obtain ⟨k2, v2⟩ := p
    simp only [List.cons_append, dictGet]
    by_cases h : k2 = k
    · simp [h, orO]
    · simp [h, ih]

theorem dictGet_isSome_iff (d : List (List Char × Value)) (k : List Char) :
    (dictGet d k).isSome = true ↔ k ∈ d.map Prod.fst := by
  induction d with
  | nil => simp [dictGet]
  | cons p rest ih =>
    obtain ⟨k2, v2⟩ := p
    simp only [List.map_cons, List.mem_cons, dictGet]
    by_cases h : k2 = k
    · simp [h]
    · have hk : ¬k = k2 := fun hh => h hh.symm
      simp [h, hk, ih]

theorem dictSet_map_fst (d : List (List Char × Value)) (k : List Char) (v : Value) :
    (dictSet d k v).map Prod.fst =
      if (dictGet d k).isSome then d.map Prod.fst else d.map Prod.fst ++ [k] := by
  induction d with
  | nil => simp [dictGet, dictSet]
  | cons p rest ih =>
    obtain ⟨k2, v2⟩ := p
    simp only [dictSet, dictGet]
    by_cases h : k2 = k
    · simp [h]
    · simp only [if_neg h, List.map_cons, ih]
      by_cases h2 : (dictGet rest k).isSome
      · simp [h2]
      · simp [h2]

theorem Inv_initState : Inv initState := fun _ => rfl

theorem Inv_bindName (st : PState) (h : Inv st) (n : List Char) (v : Value) :
    Inv (bindName st n v) := by
  intro k
  simp only [bindName]
  by_cases ho : (dictGet st.output n).isSome
  · rw [if_pos ho, dictGet_dictSet]
    by_cases hk : n = k
    · subst hk
      simp [h n, ho]
    · rw [if_neg hk]
      exact h k
  · rw [if_neg ho, dictGet_dictSet, dictGet_dictSet]
    by_cases hk : n = k
    · simp [hk]
    · simp only [if_neg hk]
      exact h k

theorem Inv_applyBinds (bs : List (List Char × Value)) (st : PState) (h : Inv st) :
    Inv (applyBinds st bs) := by
  induction bs generalizing st with
  | nil => exact h
  | cons p rest ih =>
    obtain ⟨n, v⟩ := p
    exact ih (bindName st n v) (Inv_bindName st h n v)

theorem applyBinds_constants_get (bs : List (List Char × Value)) (st : PState)
    (h : Inv st) (k : List Char) :
    dictGet (applyBinds st bs).constants k = orO (dictGet st.constants k) (dictGet bs k) := by
  induction bs generalizing st with
  | nil =>
    cases hc : dictGet st.constants k <;> simp [applyBinds, dictGet, orO, hc]
  | cons p rest ih =>
    obtain ⟨n, v⟩ := p
    simp only [applyBinds]
    rw [ih (bindName st n v) (Inv_bindName st h n v)]
    simp only [bindName, dictGet]
    by_cases ho : (dictGet st.output n).isSome
    · rw [if_pos ho]
      by_cases hk : n = k
      · subst hk
        have hc : (dictGet st.constants n).isSome := by rw [h n]; exact ho
        obtain ⟨w, hw⟩ := Option.isSome_iff_exists.mp hc
        rw [hw, if_pos rfl]
        rfl
      · rw [if_neg hk]
    · rw [if_neg ho, dictGet_dictSet]
      by_cases hk : n = k
      · subst hk
        have hc : dictGet st.constants n = none := by
          cases hcc : dictGet st.constants n with
          | none => rfl
          | some w =>
            exfalso
            apply ho
            rw [← h n, hcc]
            rfl
        rw [if_pos rfl, if_pos rfl, hc]
        rfl
      · rw [if_neg hk, if_neg hk]

theorem applyBinds_output_get (bs : List (List Char × Value)) (st : PState) (k : List Char) :
    dictGet (applyBinds st bs).output k = orO (dictGet bs.reverse k) (dictGet st.output k) := by
  induction bs generalizing st with
  | nil => simp [applyBinds, dictGet, orO]
  | cons p rest ih =>
    obtain ⟨n, v⟩ := p
    simp only [applyBinds, List.reverse_cons]
    rw [ih (bindName st n v), dictGet_append, orO_assoc]
    congr 1
    simp only [bindName]
    rw [dictGet_dictSet]
    simp only [dictGet]
    by_cases hk : n = k
    · simp [hk, orO]
    · simp [hk, orO]

theorem applyBinds_output_keys (bs : List (List Char × Value)) (st : PState) :
    (applyBinds st bs).output.map Prod.fst =
      st.output.map Prod.fst ++ firstKeys (st.output.map Prod.fst) (bs.map Prod.fst) := by
  induction bs generalizing st with
  | nil => simp [applyBinds, firstKeys]
  | cons p rest ih =>
    obtain ⟨n, v⟩ := p
    simp only [applyBinds, List.map_cons]
    rw [ih (bindName st n v)]
    simp only [bindName, dictSet_map_fst, firstKeys]
    by_cases ho : (dictGet st.output n).isSome
    · have hmem : n ∈ st.output.map Prod.fst := (dictGet_isSome_iff _ _).mp ho
      rw [if_pos ho, if_pos hmem]
    · have hmem : n ∉ st.output.map Prod.fst := fun hm => ho ((dictGet_isSome_iff _ _).mpr hm)
      rw [if_neg ho, if_neg hmem]
      simp

/-- C2: in a document where a name is declared more than once, every NAME
value-reference to that name after the re-declaration resolves (via
`resolveName`, the lookup of `parse_value`) to the value of the first
declaration, while the output mapping holds the value of the latest
declaration at the insertion position of the first.  Stated over an
arbitrary sequence of completed top-level bindings applied to the fresh
state — exactly the states `Parser.parse` reaches — with `dictGet bs x`
the first declared value of `x` and `dictGet bs.reverse x` the latest. -/
theorem C2_first_declaration_wins (bs : List (List Char × Value)) (x : List Char)
    (v1 v2 : Value)
    (hfirst : dictGet bs x = some v1) (hlast : dictGet bs.reverse x = some v2) :
    resolveName (applyBinds initState bs) x = .ok v1
    ∧ dictGet (applyBinds initState bs).output x = some v2
    ∧ (applyBinds initState bs).output.map Prod.fst = firstKeys [] (bs.map Prod.fst) := by
  refine ⟨?_, ?_, ?_⟩
  · have h := applyBinds_constants_get bs initState Inv_initState x
    have h0 : dictGet initState.constants x = none := rfl
    rw [hfirst, h0] at h
    simp only [orO] at h
    simp [resolveName, h]
  · have h := applyBinds_output_get bs initState x
    rw [hlast] at h
    simp only [orO] at h
    exact h
  · have h := applyBinds_output_keys bs initState
    simpa [initState] using h

theorem C2_witness :
    resolveName (applyBinds initState [(['a'], .int 1), (['a'], .int 2)]) ['a'] = .ok (.int 1)
    ∧ dictGet (applyBinds initState [(['a'], .int 1), (['a'], .int 2)]).output ['a']
        = some (.int 2)
    ∧ (applyBinds initState [(['a'], .int 1), (['a'], .int 2)]).output.map Prod.fst
        = firstKeys [] ([(['a'], Value.int 1), (['a'], Value.int 2)].map Prod.fst) :=
  C2_first_declaration_wins [(['a'], .int 1), (['a'], .int 2)] ['a'] (.int 1) (.int 2) rfl rfl

/-- C8: after every completed top-level binding (that is, in every state
`applyBinds initState bs` the top-level loop of `Parser.parse` can reach),
the constants table and the output mapping have exactly the same keys, and
consequently `resolveName` coincides with the fallback-free
`resolveNameConstantsOnly`: the output-mapping fallback of the NAME branch
is never the deciding lookup. -/
theorem C8_constants_output_same_keys (bs : List (List Char × Value)) (k : List Char) :
    (dictGet (applyBinds initState bs).constants k).isSome
      = (dictGet (applyBinds initState bs).output k).isSome
    ∧ resolveName (applyBinds initState bs) k
      = resolveNameConstantsOnly (applyBinds initState bs) k := by
  have hInv := Inv_applyBinds bs initState Inv_initState
  refine ⟨hInv k, ?_⟩
  cases hc : dictGet (applyBinds initState bs).constants k with
  | some v => simp [resolveName, resolveNameConstantsOnly, hc]
  | none =>
    have ho : dictGet (applyBinds initState bs).output k = none := by
      have hh := hInv k
      rw [hc] at hh
      cases hoo : dictGet (applyBinds initState bs).output k
      · rfl
      · rw [hoo] at hh
        simp [Option.isSome] at hh
    simp [resolveName, resolveNameConstantsOnly, hc, ho]

/-- C1 (amended): applying `PLUS`, `MINUS` or `MULTIPLY` to operands of
which at least one is a list fails with `TypeError`, except that `PLUS` on
two lists succeeds with their concatenation and `MULTIPLY` of a list by an
Integer (in either order) succeeds with the repeated list — the Python
operators on lines 194-198 of src/converter.py concatenate and repeat
lists instead of raising. -/
theorem C1_arith_list_typeerror_amended (op : TokType) (l r : Value)
    (hop : op = .PLUS ∨ op = .MINUS ∨ op = .MULTIPLY)
    (hl : isList l = true ∨ isList r = true) :
    evalBinOp op l r = .error .typeError
    ∨ (op = .PLUS ∧ ∃ a b, l = .list a ∧ r = .list b
        ∧ evalBinOp op l r = .ok (.list (a ++ b)))
    ∨ (op = .MULTIPLY ∧
        ((∃ a n, l = .list a ∧ r = .int n ∧ evalBinOp op l r = .ok (.list (listRepeat n a)))
         ∨ (∃ a n, l = .int n ∧ r = .list a
              ∧ evalBinOp op l r = .ok (.list (listRepeat n a))))) := by
  rcases hop with rfl | rfl | rfl <;> rcases l with a | a | a <;> rcases r with b | b | b <;>
    first
      | exact Or.inl rfl
      | exact Or.inr (Or.inl ⟨rfl, a, b, rfl, rfl, rfl⟩)
      | exact Or.inr (Or.inr ⟨rfl, Or.inl ⟨a, b, rfl, rfl, rfl⟩⟩)
      | exact Or.inr (Or.inr ⟨rfl, Or.inr ⟨b, a, rfl, rfl, rfl⟩⟩)
      | exact absurd hl (by simp [isList])

theorem C1_amended_witness :
    evalBinOp .MINUS (.list []) (.int 0) = .error .typeError
    ∨ (TokType.MINUS = .PLUS ∧ ∃ a b, Value.list [] = .list a ∧ Value.int 0 = .list b
        ∧ evalBinOp .MINUS (.list []) (.int 0) = .ok (.list (a ++ b)))
    ∨ (TokType.MINUS = .MULTIPLY ∧
        ((∃ a n, Value.list [] = .list a ∧ Value.int 0 = .int n
            ∧ evalBinOp .MINUS (.list []) (.int 0) = .ok (.list (listRepeat n a)))
         ∨ (∃ a n, Value.list [] = .int n ∧ Value.int 0 = .list a
              ∧ evalBinOp .MINUS (.list []) (.int 0) = .ok (.list (listRepeat n a))))) :=
  C1_arith_list_typeerror_amended .MINUS (.list []) (.int 0)
    (Or.inr (Or.inl rfl)) (Or.inl rfl)

/-- C1 (counterexample): the document `a is array(1) b is |a + a|` has a
list operand on both sides of `PLUS`, yet the conversion succeeds and binds
`b` to the concatenation `[1, 1]` instead of failing with `TypeError`. -/
theorem C1_counterexample :
    convert (("a is array(1) b is |a + a|").data) =
      .ok [(['a'], .list [.int 1]), (['b'], .list [.int 1, .int 1])] := by
  rfl

/-- C7: two independent runs of the pipeline on the same input text produce
structurally equal results (equal error kinds, or output mappings with the
same keys in the same order and structurally equal values).  `convert` is a
pure function of the text alone: `Lexer.__init__` and `Parser.__init__`
create all lexer and parser state afresh per invocation, so no state flows
between invocations. -/
theorem C7_deterministic (text : List Char) : outBeq (convert text) (convert text) = true := by
  cases h : convert text with
  | error e => cases e <;> rfl
  | ok l =>
    simp only [outBeq]
    exact entriesBeq_refl l

/-- C9 (counterexample): for the identifier `is3`, whose first two
characters are `is`, the lexer emits `IS` followed by a NUMBER token for
the remaining character `3` — not a NAME token — so the claim's "followed
by a separate NAME token for the remaining characters" fails when the
remainder starts with a digit. -/
theorem C9_counterexample :
    tokenize (("is3 is 5").data) =
      .ok [⟨.IS, ['i', 's']⟩, ⟨.NUMBER, ['3']⟩, ⟨.IS, ['i', 's']⟩, ⟨.NUMBER, ['5']⟩] := by
  rfl

/-- C10: a binding whose value position starts with a `MINUS` token fails
with `ParseError` (the value dispatch of `parse_value` has no unary-minus
case), and concretely `x is -5` — which lexes the sign as a separate
`MINUS` token because the NUMBER pattern has no sign — fails with
`ParseError`: negative numeric literals cannot be written directly. -/
theorem C10_no_unary_minus (fuel : Nat) (st : PState) (nm lx1 lx2 : List Char)
    (rest : List Token) (hf : 2 ≤ fuel) :
    parse fuel st (⟨.NAME, nm⟩ :: ⟨.IS, lx1⟩ :: ⟨.MINUS, lx2⟩ :: rest) = .error .parseError
    ∧ convert (("x is -5").data) = .error .parseError := by
  obtain ⟨f, rfl⟩ : ∃ f, fuel = f + 2 := ⟨fuel - 2, by omega⟩
  refine ⟨?_, rfl⟩
  simp [parse, parse_value]

theorem C10_witness :
    parse 2 initState (⟨.NAME, ['x']⟩ :: ⟨.IS, ['i', 's']⟩ :: ⟨.MINUS, ['-']⟩ :: [])
        = .error .parseError
    ∧ convert (("x is -5").data) = .error .parseError :=
  C10_no_unary_minus 2 initState ['x'] ['i', 's'] ['-'] [] (by omega)

theorem pipeToks_cons_pipe (t : Token) (ts : List Token) (h : isPipe t = true) :
    pipeToks (t :: ts) = t :: pipeToks ts := by
  simp [pipeToks, List.filter_cons, h]

theorem pipeToks_cons_nonpipe (t : Token) (ts : List Token) (h : isPipe t = false) :
    pipeToks (t :: ts) = pipeToks ts := by
  simp [pipeToks, List.filter_cons, h]

theorem isPipe_mk_false (k : TokType) (l : List Char)
    (h1 : ¬k = TokType.PIPE_OPEN) (h2 : ¬k = TokType.PIPE_CLOSE) :
    isPipe ⟨k, l⟩ = false := by
  cases k <;> first | rfl | exact absurd rfl h1 | exact absurd rfl h2

theorem lexLoop_alt (fuel : Nat) (s : List Char) (o c : Nat) (ts : List Token)
    (h1 : c ≤ o) (h2 : o ≤ c + 1) (hl : lexLoop fuel s o c = .ok ts) :
    AltFrom (decide (o ≤ c)) (pipeToks ts) := by
  induction fuel generalizing s o c ts with
  | zero =>
    cases s with
    | nil =>
      simp only [lexLoop, Except.ok.injEq] at hl
      subst hl
      exact trivial
    | cons a as => simp [lexLoop] at hl
  | succ fuel ih =>
    cases s with
    | nil =>
      simp only [lexLoop, Except.ok.injEq] at hl
      subst hl
      exact trivial
    | cons a as =>
      rcases hkt : matchLexeme a as with ⟨k, tail⟩
      rw [lexLoop] at hl
      simp only [hkt] at hl
      by_cases hwc : k = TokType.WHITESPACE ∨ k = TokType.COMMENT
      · rw [if_pos hwc] at hl
        exact ih _ _ _ _ h1 h2 hl
      · rw [if_neg hwc] at hl
        by_cases hmm : k = TokType.MISMATCH
        · rw [if_pos hmm] at hl
          exact absurd hl (by simp)
        · rw [if_neg hmm] at hl
          by_cases hp : k = TokType.PIPE_OPEN ∨ k = TokType.PIPE_CLOSE
          · rw [if_pos hp] at hl
            by_cases hoc : o ≤ c
            · rw [if_pos hoc] at hl
              cases hres : lexLoop fuel (as.drop tail.length) (o + 1) c with
              | error e => rw [hres] at hl; simp [Except.map] at hl
              | ok ts2 =>
                rw [hres] at hl
                simp only [Except.map, Except.ok.injEq] at hl
                subst hl
                rw [pipeToks_cons_pipe ⟨TokType.PIPE_OPEN, a :: tail⟩ ts2 rfl]
                rw [decide_eq_true hoc]
                refine ⟨rfl, ?_⟩
                have halt := ih _ _ _ _ (show c ≤ o + 1 by omega) (show o + 1 ≤ c + 1 by omega) hres
                rw [decide_eq_false (show ¬o + 1 ≤ c by omega)] at halt
                exact halt
            · rw [if_neg hoc] at hl
              cases hres : lexLoop fuel (as.drop tail.length) o (c + 1) with
              | error e => rw [hres] at hl; simp [Except.map] at hl
              | ok ts2 =>
                rw [hres] at hl
                simp only [Except.map, Except.ok.injEq] at hl
                subst hl
                rw [pipeToks_cons_pipe ⟨TokType.PIPE_CLOSE, a :: tail⟩ ts2 rfl]
                rw [decide_eq_false hoc]
                refine ⟨rfl, ?_⟩
                have halt := ih _ _ _ _ (show c + 1 ≤ o by omega) (show o ≤ c + 1 + 1 by omega) hres
                rw [decide_eq_true (show o ≤ c + 1 by omega)] at halt
                exact halt
          · rw [if_neg hp] at hl
            push_neg at hp
            cases hres : lexLoop fuel (as.drop tail.length) o c with
            | error e => rw [hres] at hl; simp [Except.map] at hl
            | ok ts2 =>
              rw [hres] at hl
              simp only [Except.map, Except.ok.injEq] at hl
              subst hl
              rw [pipeToks_cons_nonpipe _ _ (isPipe_mk_false k _ hp.1 hp.2)]
              exact ih _ _ _ _ h1 h2 hres

theorem AltFrom_get (ps : List Token) : ∀ (b : Bool) (i : Nat) (hi : i < ps.length),
    AltFrom b ps → ((ps.get ⟨i, hi⟩).type = .PIPE_OPEN ↔ (i % 2 = 0 ↔ b = true)) := by
  induction ps with
  | nil =>
    intro b i hi
    exact absurd hi (by simp)
  | cons t rest ih =>
    intro b i hi h
    obtain ⟨ht, hrest⟩ := h
    cases i with
    | zero =>
      simp only [List.get]
      cases b
      · simp only [if_neg Bool.false_ne_true] at ht
        rw [ht]
        simp
      · simp only [if_pos rfl] at ht
        rw [ht]
        simp
    | succ i2 =>
      have hlt : i2 < rest.length := by simpa using hi
      have hrec := ih (!b) i2 hlt hrest
      simp only [List.get]
      rw [hrec]
      cases b <;> simp <;> omega

/-- C3: whenever the lexer succeeds, the bar tokens of the emitted stream
alternate `PIPE_OPEN`, `PIPE_CLOSE`, `PIPE_OPEN`, ...: the `i`-th bar
(0-based; the `N = i + 1`-st bar of the claim) is `PIPE_OPEN` exactly when
`N` is odd.  This is the consequence of the count-based reclassification
in `lexLoop`: a bar is `PIPE_OPEN` exactly when `opens <= closes` among the
bars already emitted. -/
theorem C3_bar_alternation (s : List Char) (ts : List Token) (h : tokenize s = .ok ts)
    (i : Nat) (hi : i < (pipeToks ts).length) :
    ((pipeToks ts).get ⟨i, hi⟩).type = .PIPE_OPEN ↔ (i + 1) % 2 = 1 := by
  have halt : AltFrom true (pipeToks ts) := by
    have hh := lexLoop_alt (s.length + 1) s 0 0 ts (le_refl 0) (by omega) h
    simpa using hh
  have hg := AltFrom_get (pipeToks ts) true i hi halt
  rw [hg]
  constructor
  · intro hh
    have h0 : i % 2 = 0 := hh.mpr rfl
    omega
  · intro hh
    constructor
    · intro _
      rfl
    · intro _
      omega

theorem tsW_pipe_bound : 0 < (pipeToks tsW).length := by decide

theorem C3_witness : ((pipeToks tsW).get ⟨0, tsW_pipe_bound⟩).type = .PIPE_OPEN :=
  (C3_bar_alternation sW tsW rfl 0 tsW_pipe_bound).mpr rfl

theorem ValueChunk.ne_nil (st : PState) (c : List Token) (v : Value)
    (h : ValueChunk st c v) : c ≠ [] := by
  intro hc
  subst hc
  have hh := h [] 0 (by simp)
  simp [parse_value] at hh

theorem ValueChunk.head_ok (st : PState) (t : Token) (c : List Token) (v : Value)
    (h : ValueChunk st (t :: c) v) :
    ¬t.type = .PAREN_CLOSE ∧ ¬t.type = .COMMA := by
  have hh := h [] (c.length + 1) (by simp)
  rw [List.cons_append, List.append_nil] at hh
  simp only [parse_value] at hh
  constructor
  · intro hty
    rw [hty] at hh
    simp at hh
  · intro hty
    rw [hty] at hh
    simp at hh

theorem loopChunks_cons (c : List Token) (cs : List (List Token)) :
    loopChunks (c :: cs) = commaTok :: (c ++ loopChunks cs) := by
  simp [loopChunks]

theorem sepChunks_cons (c : List Token) (cs : List (List Token)) :
    sepChunks (c :: cs) = c ++ loopChunks cs := by
  simp [sepChunks, loopChunks]

theorem eat_cons_pos (tt : TokType) (t : Token) (ts : List Token) (h : t.type = tt) :
    eat tt (t :: ts) = .ok (t, ts) := by
  simp [eat, h]

theorem parse_array_loop_chunks (st : PState) (cs : List (List Token)) (vs : List Value)
    (h : List.Forall₂ (ValueChunk st) cs vs) :
    ∀ rest fuel, (loopChunks cs).length + 1 ≤ fuel →
      parse_array_loop fuel st (loopChunks cs ++ (parenCloseTok :: rest)) = .ok (vs, rest) := by
  induction h with
  | nil =>
    intro rest fuel hf
    obtain ⟨f, rfl⟩ : ∃ f, fuel = f + 1 := ⟨fuel - 1, by omega⟩
    simp [loopChunks, parse_array_loop, headType, eat, parenCloseTok]
  | @cons c v cs2 vs2 hcv hrest ih =>
    intro rest fuel hf
    rw [loopChunks_cons] at hf ⊢
    simp only [List.length_cons, List.length_append] at hf
    obtain ⟨f, rfl⟩ : ∃ f, fuel = f + 1 := ⟨fuel - 1, by omega⟩
    have hx := hcv (loopChunks cs2 ++ parenCloseTok :: rest) f (by omega)
    have hloop := ih rest f (by omega)
    simp only [List.cons_append, List.append_assoc]
    rw [parse_array_loop]
    rw [if_pos (show headType (commaTok :: (c ++ (loopChunks cs2 ++ parenCloseTok :: rest)))
          = some TokType.COMMA from rfl)]
    simp only [List.tail_cons, hx, hloop]

theorem parse_array_loop_trailing (st : PState) (cs : List (List Token)) (vs : List Value)
    (h : List.Forall₂ (ValueChunk st) cs vs) :
    ∀ rest fuel, (loopChunks cs).length + 2 ≤ fuel →
      parse_array_loop fuel st (loopChunks cs ++ (commaTok :: parenCloseTok :: rest)) =
        .error .parseError := by
  induction h with
  | nil =>
    intro rest fuel hf
    obtain ⟨f, rfl⟩ : ∃ f, fuel = f + 2 := ⟨fuel - 2, by omega⟩
    simp [loopChunks, parse_array_loop, headType, commaTok, parse_value, parenCloseTok]
  | @cons c v cs2 vs2 hcv hrest ih =>
    intro rest fuel hf
    rw [loopChunks_cons] at hf ⊢
    simp only [List.length_cons, List.length_append] at hf
    obtain ⟨f, rfl⟩ : ∃ f, fuel = f + 1 := ⟨fuel - 1, by omega⟩
    have hx := hcv (loopChunks cs2 ++ commaTok :: parenCloseTok :: rest) f (by omega)
    have hloop := ih rest f (by omega)
    simp only [List.cons_append, List.append_assoc]
    rw [parse_array_loop]
    rw [if_pos (show headType
          (commaTok :: (c ++ (loopChunks cs2 ++ commaTok :: parenCloseTok :: rest)))
          = some TokType.COMMA from rfl)]
    simp only [List.tail_cons, hx, hloop]

theorem parse_array_chunks (st : PState) (chunks : List (List Token)) (vs : List Value)
    (h : List.Forall₂ (ValueChunk st) chunks vs) :
    ∀ rest fuel, (sepChunks chunks).length + 2 ≤ fuel →
      parse_array fuel st (arrayOpenTok :: (sepChunks chunks ++ parenCloseTok :: rest)) =
        .ok (vs, rest) := by
  intro rest fuel hf
  obtain ⟨f, rfl⟩ : ∃ f, fuel = f + 1 := ⟨fuel - 1, by omega⟩
  rw [parse_array]
  rw [eat_cons_pos TokType.ARRAY_OPEN arrayOpenTok _ rfl]
  cases h with
  | nil =>
    simp [sepChunks, headType, parenCloseTok]
  | @cons c v cs2 vs2 hcv hrest =>
    obtain ⟨t, c2, rfl⟩ : ∃ t c2, c = t :: c2 := by
      cases hc : c with
      | nil => exact absurd hc (ValueChunk.ne_nil st c v hcv)
      | cons t c2 => exact ⟨t, c2, rfl⟩
    have hhead := ValueChunk.head_ok st t c2 v hcv
    rw [sepChunks_cons] at hf ⊢
    simp only [List.length_append, List.length_cons] at hf
    simp only [List.cons_append, List.append_assoc]
    have hne : ¬headType (t :: (c2 ++ (loopChunks cs2 ++ parenCloseTok :: rest)))
        = some TokType.PAREN_CLOSE := by
      simp only [headType, List.head?_cons, Option.map_some']
      intro hcon
      exact hhead.1 (Option.some.inj hcon)
    have hx := hcv (loopChunks cs2 ++ parenCloseTok :: rest) f
      (by simp only [List.length_cons]; omega)
    rw [List.cons_append] at hx
    have hloop := parse_array_loop_chunks st cs2 vs2 hrest rest f (by omega)
    simp only [if_neg hne, hx, hloop]

theorem parse_array_trailing (st : PState) (chunks : List (List Token)) (vs : List Value)
    (h : List.Forall₂ (ValueChunk st) chunks vs) :
    ∀ rest fuel, (sepChunks chunks).length + 3 ≤ fuel →
      parse_array fuel st
          (arrayOpenTok :: (sepChunks chunks ++ commaTok :: parenCloseTok :: rest)) =
        .error .parseError := by
  intro rest fuel hf
  obtain ⟨f, rfl⟩ : ∃ f, fuel = f + 1 := ⟨fuel - 1, by omega⟩
  rw [parse_array]
  rw [eat_cons_pos TokType.ARRAY_OPEN arrayOpenTok _ rfl]
  cases h with
  | nil =>
    obtain ⟨f2, rfl⟩ : ∃ f2, f = f2 + 1 := ⟨f - 1, by omega⟩
    simp [sepChunks, headType, commaTok, parse_value, parenCloseTok]
  | @cons c v cs2 vs2 hcv hrest =>
    obtain ⟨t, c2, rfl⟩ : ∃ t c2, c = t :: c2 := by
      cases hc : c with
      | nil => exact absurd hc (ValueChunk.ne_nil st c v hcv)
      | cons t c2 => exact ⟨t, c2, rfl⟩
    have hhead := ValueChunk.head_ok st t c2 v hcv
    rw [sepChunks_cons] at hf ⊢
    simp only [List.length_append, List.length_cons] at hf
    simp only [List.cons_append, List.append_assoc]
    have hne : ¬headType (t :: (c2 ++ (loopChunks cs2 ++ commaTok :: parenCloseTok :: rest)))
        = some TokType.PAREN_CLOSE := by
      simp only [headType, List.head?_cons, Option.map_some']
      intro hcon
      exact hhead.1 (Option.some.inj hcon)
    have hx := hcv (loopChunks cs2 ++ commaTok :: parenCloseTok :: rest) f
      (by simp only [List.length_cons]; omega)
    rw [List.cons_append] at hx
    have hloop := parse_array_loop_trailing st cs2 vs2 hrest rest f (by omega)
    simp only [if_neg hne, hx, hloop]

/-- C5: for every well-formed array literal — `array(` followed by element
chunks (each parsed by `parse_value` to a value) separated by commas and a
closing paren — parsing yields exactly the element values in declaration
order, and the empty literal `array()` (no chunks) yields the empty list;
and for every array literal whose last COMMA is followed by the closing
marker instead of a value (trailing comma), parsing fails with
`ParseError`. -/
theorem C5_array_order_and_trailing_comma (st : PState) (chunks : List (List Token))
    (vs : List Value) (rest rest2 : List Token) (fuel fuel2 : Nat)
    (h : List.Forall₂ (ValueChunk st) chunks vs)
    (hf : (arrayToks chunks).length + 1 ≤ fuel)
    (hf2 : (arrayToksTrailing chunks).length + 1 ≤ fuel2) :
    parse_value fuel st (arrayToks chunks ++ rest) = .ok (.list vs, rest)
    ∧ parse_value fuel2 st (arrayToksTrailing chunks ++ rest2) = .error .parseError := by
  have hlen : (arrayToks chunks).length = (sepChunks chunks).length + 2 := by
    simp [arrayToks]
  have hlen2 : (arrayToksTrailing chunks).length = (sepChunks chunks).length + 3 := by
    simp [arrayToksTrailing]
  constructor
  · obtain ⟨f, rfl⟩ : ∃ f, fuel = f + 1 := ⟨fuel - 1, by omega⟩
    rw [show arrayToks chunks ++ rest
        = arrayOpenTok :: (sepChunks chunks ++ parenCloseTok :: rest) by
      simp [arrayToks]]
    rw [parse_value]
    rw [show arrayOpenTok.type = TokType.ARRAY_OPEN from rfl]
    rw [parse_array_chunks st chunks vs h rest f (by omega)]
    rfl
  · obtain ⟨f, rfl⟩ : ∃ f, fuel2 = f + 1 := ⟨fuel2 - 1, by omega⟩
    rw [show arrayToksTrailing chunks ++ rest2
        = arrayOpenTok :: (sepChunks chunks ++ commaTok :: parenCloseTok :: rest2) by
      simp [arrayToksTrailing]]
    rw [parse_value]
    rw [show arrayOpenTok.type = TokType.ARRAY_OPEN from rfl]
    rw [parse_array_trailing st chunks vs h rest2 f (by omega)]
    rfl

theorem numChunk (st : PState) (l : List Char) : ValueChunk st [numTok l] (numValue l) := by
  intro rest fuel hf
  obtain ⟨f, rfl⟩ : ∃ f, fuel = f + 1 := ⟨fuel - 1, by simp at hf; omega⟩
  simp [parse_value, numTok]

theorem C5_witness :
    parse_value 7 initState (arrayToks [[numTok ['1']], [numTok ['2']]] ++ []) =
      .ok (.list [numValue ['1'], numValue ['2']], [])
    ∧ parse_value 8 initState (arrayToksTrailing [[numTok ['1']], [numTok ['2']]] ++ []) =
      .error .parseError :=
  C5_array_order_and_trailing_comma initState [[numTok ['1']], [numTok ['2']]]
    [numValue ['1'], numValue ['2']] [] [] 7 8
    (List.Forall₂.cons (numChunk _ _) (List.Forall₂.cons (numChunk _ _) List.Forall₂.nil))
    (by decide) (by decide)

theorem takeWhile_all (p : Char → Bool) (l : List Char) (h : l.all p = true) :
    l.takeWhile p = l := by
  induction l with
  | nil => rfl
  | cons a as ih =>
    simp only [List.all_cons, Bool.and_eq_true] at h
    simp [List.takeWhile_cons, h.1, ih h.2]

theorem numLexeme_head (c : Char) (cs : List Char) (h : isNumLexeme (c :: cs) = true) :
    isDigitC c = true ∨ c = '.' := by
  by_cases hc : c = '.'
  · exact Or.inr hc
  · left
    rw [isNumLexeme.eq_def] at h
    split at h
    · next rest heq =>
      exact absurd (List.cons.inj heq).1 hc
    · simp only [Bool.and_eq_true, Bool.not_eq_eq_eq_not, Bool.not_true] at h
      by_contra hd
      rw [Bool.not_eq_true] at hd
      rw [List.takeWhile_cons_of_neg (by simp [hd])] at h
      simp at h

theorem matchLexeme_numLexeme (c : Char) (cs : List Char)
    (h : isNumLexeme (c :: cs) = true) :
    matchLexeme c cs = (.NUMBER, cs) := by
  by_cases hc : c = '.'
  · subst hc
    simp only [isNumLexeme, Bool.and_eq_true, Bool.not_eq_eq_eq_not, Bool.not_true] at h
    obtain ⟨hne, hall⟩ := h
    have hhead : isDigitC (cs.headD ' ') = true := by
      cases cs with
      | nil => simp at hne
      | cons a as =>
        simp only [List.headD_cons]
        simp only [List.all_cons, Bool.and_eq_true] at hall
        exact hall.1
    rw [matchLexeme]
    rw [if_neg (by decide : ¬isDigitC '.' = true)]
    rw [if_pos (show (('.' == '.') && isDigitC (cs.headD ' ')) = true by simpa using hhead)]
    rw [takeWhile_all isDigitC cs hall]
  · have hd : isDigitC c = true := by
      rcases numLexeme_head c cs h with hd | hdot
      · exact hd
      · exact absurd hdot hc
    rw [matchLexeme, if_pos hd]
    suffices hnt : numberTail cs = cs by rw [hnt]
    rw [isNumLexeme.eq_def] at h
    split at h
    · next rest heq =>
      exact absurd (List.cons.inj heq).1 hc
    · simp only [Bool.and_eq_true] at h
      obtain ⟨hne, hrest⟩ := h
      rw [List.dropWhile_cons_of_pos hd] at hrest
      rw [numberTail.eq_def]
      cases hdrop : cs.dropWhile isDigitC with
      | nil =>
        have hself := List.takeWhile_append_dropWhile (p := isDigitC) (l := cs)
        rw [hdrop, List.append_nil] at hself
        simp only [hdrop]
        exact hself
      | cons rh rt =>
        rw [hdrop] at hrest
        simp only [List.isEmpty_cons, List.headD_cons, List.tail_cons,
          Bool.false_or, Bool.and_eq_true] at hrest
        obtain ⟨hrh, hrt⟩ := hrest
        have hrh2 : rh = '.' := by simpa using hrh
        subst hrh2
        simp only [hdrop]
        rw [takeWhile_all isDigitC rt hrt]
        have hself := List.takeWhile_append_dropWhile (p := isDigitC) (l := cs)
        rw [hdrop] at hself
        exact hself

theorem lexStep_x (f o cl : Nat) (r : List Char) :
    lexLoop (f + 1) ('x' :: ' ' :: r) o cl =
      (lexLoop f (' ' :: r) o cl).map (⟨.NAME, ['x']⟩ :: ·) := rfl

theorem lexStep_space_i (f o cl : Nat) (r : List Char) :
    lexLoop (f + 1) (' ' :: 'i' :: r) o cl = lexLoop f ('i' :: r) o cl := rfl

theorem lexStep_is (f o cl : Nat) (c : Char) (r : List Char) :
    lexLoop (f + 1) ('i' :: 's' :: c :: r) o cl =
      (lexLoop f (c :: r) o cl).map (⟨.IS, ['i', 's']⟩ :: ·) := rfl

theorem lexStep_space (f o cl : Nat) (c : Char) (r : List Char) (h : isPySpace c = false) :
    lexLoop (f + 1) (' ' :: c :: r) o cl = lexLoop f (c :: r) o cl := by
  have hm : matchLexeme ' ' (c :: r) = (.WHITESPACE, []) := by
    rw [show matchLexeme ' ' (c :: r) = (.WHITESPACE, (c :: r).takeWhile isPySpace) from rfl]
    rw [List.takeWhile_cons_of_neg (by simp [h])]
  rw [lexLoop]
  simp [hm]

theorem lexStep_last (f o cl : Nat) (c : Char) (cs : List Char)
    (hm : matchLexeme c cs = (.NUMBER, cs) ∨ matchLexeme c cs = (.NAME, cs)) :
    lexLoop (f + 1) (c :: cs) o cl =
      .ok [⟨(matchLexeme c cs).1, c :: cs⟩] := by
  rcases hm with hm | hm <;>
    · rw [lexLoop]
      simp [hm, lexLoop, Except.map]

theorem tokenize_x_is_N (N : List Char) (hN : isNumLexeme N = true) :
    tokenize (("x is ").data ++ N) =
      .ok [⟨.NAME, ['x']⟩, ⟨.IS, ['i', 's']⟩, ⟨.NUMBER, N⟩] := by
  obtain ⟨c, cs, rfl⟩ : ∃ c cs, N = c :: cs := by
    cases N with
    | nil => simp [isNumLexeme] at hN
    | cons c cs => exact ⟨c, cs, rfl⟩
  have hm := matchLexeme_numLexeme c cs hN
  have hns : isPySpace c = false := by
    rcases numLexeme_head c cs hN with hd | hdot
    · exact digit_not_space c hd
    · subst hdot
      decide
  unfold tokenize
  rw [show (("x is ").data ++ c :: cs).length = cs.length + 6 by simp]
  show lexLoop (cs.length + 6 + 1) ('x' :: ' ' :: 'i' :: 's' :: ' ' :: c :: cs) 0 0 = _
  rw [lexStep_x (cs.length + 6) 0 0 ('i' :: 's' :: ' ' :: c :: cs)]
  rw [show cs.length + 6 = cs.length + 5 + 1 from rfl]
  rw [lexStep_space_i (cs.length + 5) 0 0 ('s' :: ' ' :: c :: cs)]
  rw [show cs.length + 5 = cs.length + 4 + 1 from rfl]
  rw [lexStep_is (cs.length + 4) 0 0 ' ' (c :: cs)]
  rw [show cs.length + 4 = cs.length + 3 + 1 from rfl]
  rw [lexStep_space (cs.length + 3) 0 0 c cs hns]
  rw [show cs.length + 3 = cs.length + 2 + 1 from rfl]
  rw [lexStep_last (cs.length + 2) 0 0 c cs (Or.inl hm)]
  rw [hm]
  rfl

/-- C6: for every valid numeric literal N (a complete lexeme of the regex
alternative matching numbers), lexing then parsing `x is N` yields the
output mapping binding `x` to `numValue N`, and that value is a Float
exactly when the lexeme contains a dot (`x is 5` gives Integer 5;
`x is 5.0` gives Float 5.0). -/
theorem C6_number_typing (N : List Char) (hN : isNumLexeme N = true) :
    convert (("x is ").data ++ N) = .ok [(['x'], numValue N)]
    ∧ isFloatV (numValue N) = N.contains '.' := by
  constructor
  · unfold convert
    rw [tokenize_x_is_N N hN]
    rfl
  · by_cases hm : '.' ∈ N
    · simp [numValue, isFloatV, hm]
    · simp [numValue, isFloatV, hm]

theorem C6_witness :
    convert (("x is ").data ++ ("5.0").data) = .ok [(['x'], numValue (("5.0").data))]
    ∧ isFloatV (numValue (("5.0").data)) = ("5.0").data.contains '.' :=
  C6_number_typing (("5.0").data) (by decide)

theorem matchLexeme_name (c : Char) (cs : List Char)
    (hc : isNameStart c = true)
    (hcs : cs.all isNameChar = true)
    (hni : (c == 'i' && cs.take 1 == ['s']) = false) :
    matchLexeme c cs = (.NAME, cs) := by
  have h1 : isDigitC c = false := nameStart_not_digit c hc
  have h2 : (c == '.') = false := nameStart_beq_false c '.' hc (by decide)
  have h3 : (c == ')') = false := nameStart_beq_false c ')' hc (by decide)
  have h4 : (c == ',') = false := nameStart_beq_false c ',' hc (by decide)
  have h5 : (c == '|') = false := nameStart_beq_false c '|' hc (by decide)
  have h6 : (c == '+') = false := nameStart_beq_false c '+' hc (by decide)
  have h7 : (c == '-') = false := nameStart_beq_false c '-' hc (by decide)
  have h8 : (c == '*') = false := nameStart_beq_false c '*' hc (by decide)
  have harr : (cs.take 5 == ("rray(").data) = false := by
    cases htake : cs.take 5 == ("rray(").data
    · rfl
    · exfalso
      have heq : cs.take 5 = ("rray(").data := by simpa using htake
      have hmem : '(' ∈ cs.take 5 := by
        rw [heq]
        decide
      have hmem2 : '(' ∈ cs := List.take_subset 5 cs hmem
      have hbad := (List.all_eq_true.mp hcs) '(' hmem2
      exact absurd hbad (by decide)
  have hsort : (cs.take 4 == ("ort(").data) = false := by
    cases htake : cs.take 4 == ("ort(").data
    · rfl
    · exfalso
      have heq : cs.take 4 = ("ort(").data := by simpa using htake
      have hmem : '(' ∈ cs.take 4 := by
        rw [heq]
        decide
      have hmem2 : '(' ∈ cs := List.take_subset 4 cs hmem
      have hbad := (List.all_eq_true.mp hcs) '(' hmem2
      exact absurd hbad (by decide)
  rw [matchLexeme]
  simp only [h1, h2, h3, h4, h5, h6, h7, h8, harr, hsort, hni, hc,
    Bool.false_and, Bool.and_false, if_false, if_true, Bool.false_eq_true, if_neg]
  rw [takeWhile_all isNameChar cs hcs]

/-- C9 (amended): for every identifier whose first two characters are `is`,
the lexer first emits an `IS` token for those two characters — never a
single NAME token for the whole identifier; when the remaining characters
form an identifier of their own (first character a letter or underscore,
rest letters, digits or underscores) that does not itself start with `is`,
they are emitted as one NAME token (`island` gives `IS` then `NAME land`).
In every case a top-level binding whose first token is `IS` fails with
`ParseError`, because the top-level loop of `parse` requires a NAME
first. -/
theorem C9_is_prefix_amended (c : Char) (cs : List Char)
    (hc : isNameStart c = true) (hcs : cs.all isNameChar = true)
    (hni : ¬(c = 'i' ∧ cs.take 1 = ['s']))
    (fuel : Nat) (st : PState) (t : Token) (rest : List Token)
    (ht : t.type = .IS) (hf : 1 ≤ fuel) :
    tokenize ('i' :: 's' :: c :: cs) = .ok [⟨.IS, ['i', 's']⟩, ⟨.NAME, c :: cs⟩]
    ∧ parse fuel st (t :: rest) = .error .parseError := by
  constructor
  · have hniB : (c == 'i' && cs.take 1 == ['s']) = false := by
      cases hb : (c == 'i' && cs.take 1 == ['s'])
      · rfl
      · exfalso
        apply hni
        rw [Bool.and_eq_true] at hb
        exact ⟨by simpa using hb.1, by simpa using hb.2⟩
    have hm := matchLexeme_name c cs hc hcs hniB
    unfold tokenize
    rw [show ('i' :: 's' :: c :: cs).length = cs.length + 3 by simp]
    rw [show cs.length + 3 + 1 = cs.length + 3 + 1 from rfl]
    show lexLoop (cs.length + 3 + 1) ('i' :: 's' :: c :: cs) 0 0 = _
    rw [lexStep_is (cs.length + 3) 0 0 c cs]
    rw [show cs.length + 3 = cs.length + 2 + 1 from rfl]
    rw [lexStep_last (cs.length + 2) 0 0 c cs (Or.inr hm)]
    rw [hm]
    rfl
  · obtain ⟨f, rfl⟩ : ∃ f, fuel = f + 1 := ⟨fuel - 1, by omega⟩
    simp [parse, ht]

theorem C9_witness :
    tokenize ('i' :: 's' :: 'l' :: ("and").data) =
      .ok [⟨.IS, ['i', 's']⟩, ⟨.NAME, 'l' :: ("and").data⟩]
    ∧ parse 1 initState (⟨.IS, ['i', 's']⟩ :: []) = .error .parseError :=
  C9_is_prefix_amended 'l' (("and").data) (by decide) (by decide) (by decide)
    1 initState ⟨.IS, ['i', 's']⟩ [] rfl (by decide)

/-- C4: for a name `x` bound (in the constants table) to a list of numeric
values, parsing the binding `y is |sort(x)|` binds `y` to a new sequence
that is a permutation of the elements sorted ascending by numeric value,
and leaves the value bound to `x` in the output mapping unchanged — the
sort is non-destructive. -/
theorem C4_sort_nondestructive (st : PState) (x y : List Char) (elems : List Value)
    (fuel : Nat)
    (hx : dictGet st.constants x = some (.list elems))
    (hnum : elems.all isNum = true)
    (hyx : ¬y = x)
    (hfuel : 9 ≤ fuel) :
    parse fuel st (sortCallToks y x) =
      .ok (dictSet st.output y (.list (elems.insertionSort vLe)))
    ∧ dictGet (dictSet st.output y (.list (elems.insertionSort vLe))) x = dictGet st.output x
    ∧ List.Sorted vLe (elems.insertionSort vLe)
    ∧ (elems.insertionSort vLe).Perm elems := by
  refine ⟨?_, ?_, ?_, ?_⟩
  · obtain ⟨f, rfl⟩ : ∃ f, fuel = f + 9 := ⟨fuel - 9, by omega⟩
    have hres : resolveName st x = .ok (.list elems) := by
      rw [resolveName, hx]
    simp [sortCallToks, parse, parse_value, parse_constant_expr, parse_sort_function,
      eat, headType, hres, pySorted, hnum, bindName, Except.map]
  · rw [dictGet_dictSet]
    rw [if_neg hyx]
  · exact List.sorted_insertionSort vLe elems
  · exact List.perm_insertionSort vLe elems

theorem C4_witness :
    parse 9 stW (sortCallToks (['y']) (['x'])) =
      .ok (dictSet stW.output ['y']
        (.list ([Value.int 3, Value.int 1, Value.int 2].insertionSort vLe)))
    ∧ dictGet (dictSet stW.output ['y']
        (.list ([Value.int 3, Value.int 1, Value.int 2].insertionSort vLe))) ['x']
        = dictGet stW.output ['x']
    ∧ List.Sorted vLe ([Value.int 3, Value.int 1, Value.int 2].insertionSort vLe)
    ∧ ([Value.int 3, Value.int 1, Value.int 2].insertionSort vLe).Perm
        [Value.int 3, Value.int 1, Value.int 2] :=
  C4_sort_nondestructive stW ['x'] ['y'] [Value.int 3, Value.int 1, Value.int 2] 9
    rfl rfl (by decide) (by omega)

/-- Demo (spec section 8): the sort example end to end — `x` keeps its
original order, `y` gets the sorted copy. -/
theorem sort_pipeline_demo :
    convert (("x is array(3,1,2)\ny is |sort(x)|").data) =
      .ok [(['x'], .list [.int 3, .int 1, .int 2]),
           (['y'], .list [.int 1, .int 2, .int 3])] := by
  rfl

/-- Demo (spec section 8): the empty array literal yields the empty list. -/
theorem empty_array_demo : convert (("x is array()").data) = .ok [(['x'], Value.list [])] := by
  rfl

/-- Demo (spec section 8): integer expression evaluation. -/
theorem arithmetic_demo :
    convert (("a is |2 + 3|\nc is |10 - 3|\nd is |4 * 5|").data) =
      .ok [(['a'], .int 5), (['c'], .int 7), (['d'], .int 20)] := by
  rfl

end Converter

